import Mathlib

/-!
# A shallow embedding of `b2/writer.go`

This file embeds the streaming upload writer of package `b2`
(`src/b2/writer.go`): `Write` accumulates bytes in an active buffer
(`cbuf`) while feeding a running digest (`chsh`); once the buffer
reaches the chunk-size threshold (`csize`, defaulted to `1e8` on first
use) the buffer is flushed as a chunk (`sendChunk`), lazily starting the
multipart session and the worker pool exactly once (`sync.Once`).
`Close` (guarded by a second `sync.Once`) either performs one simple
upload (no chunk ever flushed) or flushes the trailing buffer, closes
the hand-off queue, waits for the workers, and issues the multipart
finish call.

Modelling conventions:

* Bytes are modelled as `Nat`; a byte buffer is a `List Nat`.
* The SHA1 accumulator `w.chsh` is modelled by the byte sequence it has
  absorbed since the last reset; a chunk's `sha1` field is the absorbed
  sequence at flush time (an injective stand-in for the hex digest).
* `w.w = io.MultiWriter(w.chsh, w.cbuf)` is `bufWrite`: one write
  appends the same bytes to both the digest accumulator and the buffer.
* The hand-off channel `w.ready` is modelled by the list `chunks` of
  chunks in hand-off order; remote calls are counted in the state
  (`starts` for `startLargeFile`, `simples` for `uploadFile`, `fins`
  for `finishLargeFile`), and `obj` records the resulting remote object
  (`w.o.f`) as its assembled bytes.
* In the sequential model the external collaborators succeed; the
  failure/retry behaviour of `uploadPart` (worker loop in `thread`) and
  `uploadFile` (`simpleWriteFile`) is modelled separately by
  `uploadChunkAttempts` and `simpleWriteAttempts`, driven by an explicit
  schedule of attempt outcomes and the external retry predicate; and the
  interleaving of the worker goroutines with `Close`'s
  `close(ready)`/`wg.Wait()`/`finishLargeFile` sequence is modelled by
  `stepWorker`/`stepCloser`/`runRace`, driven by an explicit thread
  schedule under the `sync.WaitGroup` contract.
* `ContentType`, `Info`, the object name and the `context.Context`
  plumbing carry no claim-relevant state and are omitted; errors are
  modelled as `Option Nat` (`none` = Go `nil`).
-/

namespace B2

/-- `type chunk struct` from `writer.go`: one flushed buffer with its id
(part index), byte size, digest and payload. -/
structure Chunk where
  id : Nat
  size : Nat
  sha1 : List Nat
  buf : List Nat
deriving Repr, DecidableEq

/-- `type Writer struct`, restricted to the claim-relevant state.
`cu` is `ConcurrentUploads`; `threads` counts the upload workers started
by the `once.Do` body; `started`/`closed` model the `once`/`done`
`sync.Once` guards; `starts`, `simples`, `fins` count the
`startLargeFile`, `uploadFile` and `finishLargeFile` remote calls;
`cancels` counts `w.cancel()` invocations; `obj` is the remote file
handle `w.o.f`, recorded as the object's assembled bytes. -/
structure Writer where
  cu : Nat
  csize : Nat
  cbuf : List Nat
  chsh : List Nat
  cidx : Nat
  started : Bool
  threads : Nat
  starts : Nat
  chunks : List Chunk
  err : Option Nat
  cancels : Nat
  closed : Bool
  simples : Nat
  fins : Nat
  obj : Option (List Nat)
deriving Repr, DecidableEq

/-- `func (w *Writer) setErr(err error)`: a nil error is ignored; the
first non-nil error is recorded and fires `w.cancel()`; later calls do
nothing. -/
def setErr (w : Writer) (e : Option Nat) : Writer :=
  match e with
  | none => w
  | some _ => if w.err = none then { w with err := e, cancels := w.cancels + 1 } else w

/-- `func (w *Writer) getErr() error`. -/
def getErr (w : Writer) : Option Nat :=
  w.err

/-- One write through `w.w = io.MultiWriter(w.chsh, w.cbuf)`: the bytes
go to both the digest accumulator and the active buffer.  (For
`bytes.Buffer` and a `hash.Hash` the write never fails.) -/
def bufWrite (w : Writer) (p : List Nat) : Writer :=
  { w with cbuf := w.cbuf ++ p, chsh := w.chsh ++ p }

/-- The `w.once.Do` body of `sendChunk`: on the first flush only, call
`startLargeFile` (counted in `starts`), create the hand-off channel and
start `ConcurrentUploads` workers, after bumping values below 1 to 1
(as the Go code does). -/
def startPool (w : Writer) : Writer :=
  if w.started then w
  else
    { w with started := true, starts := w.starts + 1,
             cu := if w.cu < 1 then 1 else w.cu,
             threads := if w.cu < 1 then 1 else w.cu }

/-- `func (w *Writer) sendChunk() error`, with the external
`startLargeFile` succeeding.  The `once.Do` body (`startPool`) runs only
on the first flush; then the current buffer is handed off as a chunk
with id `cidx + 1`, `cidx` is bumped, and the digest accumulator and
buffer are reset to fresh ones. -/
def sendChunk (w : Writer) : Writer :=
  { startPool w with
    chunks := (startPool w).chunks ++
      [⟨(startPool w).cidx + 1, (startPool w).cbuf.length,
        (startPool w).chsh, (startPool w).cbuf⟩],
    cidx := (startPool w).cidx + 1,
    chsh := [],
    cbuf := [] }

/-- The recursive body of `func (w *Writer) Write(p []byte)`, after the
`getErr` short-circuit and the `csize` defaulting have been handled by
`Write` (the recursive call in the Go code re-enters `Write`, whose two
entry checks are no-ops there: `writeAux` never records an error and
never zeroes `csize`).  `left` is the remaining capacity of the active
buffer; an input that fits is buffered whole, otherwise the buffer is
filled to exactly `csize`, flushed, and the remainder is written
recursively.  The returned `Nat` is the accepted byte count. -/
def writeAux (w : Writer) (p : List Nat) (hc : 0 < w.csize) : Nat × Writer :=
  let left := w.csize - w.cbuf.length
  if p.length < left then
    (p.length, bufWrite w p)
  else
    let w1 := sendChunk (bufWrite w (p.take left))
    let r := writeAux w1 (p.drop left)
      (by show 0 < (startPool (bufWrite w (p.take left))).csize
          unfold startPool
          split <;> exact hc)
    (left + r.1, r.2)
termination_by 2 * p.length + (if w.csize ≤ w.cbuf.length then 1 else 0)
decreasing_by
  rename_i hfit
  have hw1cb : (sendChunk (bufWrite w (p.take (w.csize - w.cbuf.length)))).cbuf = [] := rfl
  have hw1cs : (sendChunk (bufWrite w (p.take (w.csize - w.cbuf.length)))).csize = w.csize := by
    show (startPool (bufWrite w (p.take (w.csize - w.cbuf.length)))).csize = w.csize
    unfold startPool
    split <;> rfl
  simp only [hw1cb, hw1cs, List.length_drop, List.length_nil]
  have h2 : ¬ (w.csize ≤ 0) := by omega
  rw [if_neg h2]
  rcases Nat.lt_or_ge w.cbuf.length w.csize with h1 | h1
  · have h3 : ¬ (w.csize ≤ w.cbuf.length) := Nat.not_le_of_lt h1
    rw [if_neg h3]
    omega
  · rw [if_pos h1]
    have h0 : w.csize - w.cbuf.length = 0 := Nat.sub_eq_zero_of_le h1
    omega

/-- `func (w *Writer) Write(p []byte) (int, error)`: short-circuits on a
recorded error accepting 0 bytes, defaults `csize` to `1e8` on first
use, then runs the buffering/flushing loop (in which, with the external
calls succeeding, no error arises). -/
def Write (w : Writer) (p : List Nat) : Nat × Option Nat × Writer :=
  match getErr w with
  | some e => (0, some e, w)
  | none =>
    if h0 : w.csize = 0 then
      let r := writeAux { w with csize := 100000000 } p (by simp)
      (r.1, none, r.2)
    else
      let r := writeAux w p (Nat.pos_of_ne_zero h0)
      (r.1, none, r.2)

/-- `func (w *Writer) Close() error`, with the external calls
succeeding.  The `w.done.Do` body runs at most once: with no chunk ever
flushed (`cidx = 0`) it performs the one simple upload of the active
buffer (`simpleWriteFile`); otherwise it flushes the non-empty trailing
buffer as the final chunk, closes the hand-off queue, waits for the
workers, and issues the one `finishLargeFile` call, whose result (the
assembly of the uploaded parts, keyed by part id) becomes `w.o.f`.
`Close` returns `w.getErr()`. -/
def Close (w : Writer) : Option Nat × Writer :=
  if w.closed then (getErr w, w)
  else
    let w0 := { w with closed := true }
    if w0.cidx = 0 then
      let w1 := { w0 with simples := w0.simples + 1, obj := some w0.cbuf }
      (getErr w1, w1)
    else
      let w1 := if 0 < w0.cbuf.length then sendChunk w0 else w0
      let w2 := { w1 with fins := w1.fins + 1,
                          obj := some ((w1.chunks.map Chunk.buf).flatten) }
      (getErr w2, w2)

/-- Modelled from the spec: the writer constructor is not under `src/`;
per the spec an `UploadSession` starts with an empty active buffer, a
fresh digest accumulator, next chunk id 1 (`cidx = 0`), no recorded
error, the configured concurrency level `cu` and chunk-size threshold
`csize`, and no remote call yet performed. -/
def initW (cu csize : Nat) : Writer :=
  { cu := cu, csize := csize, cbuf := [], chsh := [], cidx := 0,
    started := false, threads := 0, starts := 0, chunks := [],
    err := none, cancels := 0, closed := false, simples := 0, fins := 0,
    obj := none }

/-- A sequence of `Write` calls, in order (the states threaded through;
the returned counts/errors are read off `Write` separately). -/
def runWrites (w : Writer) (ps : List (List Nat)) : Writer :=
  ps.foldl (fun s p => (Write s p).2.2) w

/-- The chunk-size threshold actually in force: `Write` defaults a zero
`csize` to `1e8` before using it. -/
def effSize (c : Nat) : Nat :=
  if c = 0 then 100000000 else c

/-- All bytes the writer currently holds: the flushed chunks' payloads
in hand-off order followed by the active buffer. -/
def content (w : Writer) : List Nat :=
  (w.chunks.map Chunk.buf).flatten ++ w.cbuf

/-- Push one byte through the multi-writer, flushing if the buffer
reaches the threshold.  This is the byte-at-a-time form of the write
loop: `writeAux` consumes its input in buffer-filling slices and is
defined by well-founded recursion, while `write1`/`writeList` is
structurally recursive and provably computes the same states
(`writeAux_eq_writeList`), which also makes concrete scenarios
decidable. -/
def write1 (w : Writer) (b : Nat) : Writer :=
  if (bufWrite w [b]).csize ≤ (bufWrite w [b]).cbuf.length then sendChunk (bufWrite w [b])
  else bufWrite w [b]

/-- Push a byte sequence through `write1`, byte by byte. -/
def writeList (w : Writer) : List Nat → Writer
  | [] => w
  | b :: bs => writeList (write1 w b) bs

/-- The state after one `Write` call, in the structurally recursive
form: a recorded error short-circuits, otherwise the threshold is
defaulted and the bytes go through the write loop.  `Write_ok` proves
this is the state `Write` computes. -/
def WriteL (w : Writer) (p : List Nat) : Writer :=
  match w.err with
  | some _ => w
  | none => writeList { w with csize := effSize w.csize } p

/-- The state after a sequence of `Write` calls, in executable form. -/
def runList (w : Writer) (ps : List (List Nat)) : Writer :=
  ps.foldl WriteL w

/-- The invariant maintained by the writer before `Close`: the digest
accumulator has absorbed exactly the buffered bytes; `cidx` counts the
flushed chunks; chunk ids are `1, 2, ..., cidx` in hand-off order; every
flushed chunk carries its own digest and size and is exactly one
threshold long; the multipart session has started iff a chunk was
flushed, and `startLargeFile` was called exactly once in that case; and
the buffer is strictly below the threshold (except in the untouched
zero-`csize` state, where everything is still empty). -/
def Inv (w : Writer) : Prop :=
  w.chsh = w.cbuf ∧
  w.cidx = w.chunks.length ∧
  w.chunks.map Chunk.id = List.range' 1 w.chunks.length ∧
  (∀ ch ∈ w.chunks, ch.sha1 = ch.buf ∧ ch.size = ch.buf.length ∧ ch.buf.length = w.csize) ∧
  w.started = !w.chunks.isEmpty ∧
  w.starts = (if w.chunks.isEmpty then 0 else 1) ∧
  (w.cbuf.length < w.csize ∨ (w.csize = 0 ∧ w.cbuf = [] ∧ w.chunks = []))

/-! ## Worker upload loop and its retry behaviour

`func (w *Writer) thread()` handles one chunk with an unbounded
`redo:` retry loop: an attempt that reports `n != chunk.size` or a
non-nil error is retried — through a freshly obtained upload-part URL —
exactly when the external predicate `w.o.b.r.reupload(err)` classifies
the error as retriable; otherwise the error is recorded via `setErr`
and the worker exits.  An attempt is modelled by the arguments passed to
`fc.uploadPart(w.ctx, r, chunk.sha1, chunk.size, chunk.id)`, where `r`
reads the chunk's payload `chunk.buf.Bytes()`; leases (upload-part
URLs) are numbered, `getUploadPartURL` handing out the next number. -/

/-- The arguments of one `uploadPart` attempt: the lease it goes
through, and the payload/digest/size/part-index passed. -/
structure PartAttempt where
  lease : Nat
  payload : List Nat
  sha1 : List Nat
  size : Nat
  id : Nat
deriving Repr, DecidableEq

/-- The `redo:` loop of `thread` for one chunk.  `sched` lists the
outcomes `(n, err)` of successive `uploadPart` attempts; an attempt
beyond the schedule succeeds (`n = chunk.size`, nil error).  Returns the
attempts made in order, the error recorded via `setErr` (if the loop
gave up), and the lease counter after the loop. -/
def uploadChunkAttempts (R : Option Nat → Bool) (ch : Chunk) (lease : Nat) :
    List (Nat × Option Nat) → List PartAttempt × Option Nat × Nat
  | [] => ([⟨lease, ch.buf, ch.sha1, ch.size, ch.id⟩], none, lease)
  | (n, e) :: rest =>
    if n = ch.size ∧ e = none then
      ([⟨lease, ch.buf, ch.sha1, ch.size, ch.id⟩], none, lease)
    else if R e then
      let r := uploadChunkAttempts R ch (lease + 1) rest
      (⟨lease, ch.buf, ch.sha1, ch.size, ch.id⟩ :: r.1, r.2)
    else
      ([⟨lease, ch.buf, ch.sha1, ch.size, ch.id⟩], e, lease)

/-- The arguments of one `uploadFile` attempt in `simpleWriteFile`: the
upload URL it goes through, the payload (`w.cbuf.Bytes()`, read by the
reader `r`), the size `int(r.Size())` and the digest. -/
structure SimpleAttempt where
  url : Nat
  payload : List Nat
  size : Nat
  sha1 : List Nat
deriving Repr, DecidableEq

/-- The `redo:` loop of `func (w *Writer) simpleWriteFile() error`.
`sched` lists the errors of successive `uploadFile` attempts (an attempt
beyond the schedule succeeds); a failed attempt is retried through a
freshly obtained upload URL exactly when `reupload` classifies its error
as retriable, else the error is returned. -/
def simpleWriteAttempts (R : Option Nat → Bool) (payload sha1 : List Nat) (u : Nat) :
    List (Option Nat) → List SimpleAttempt × Option Nat
  | [] => ([⟨u, payload, payload.length, sha1⟩], none)
  | e :: rest =>
    match e with
    | none => ([⟨u, payload, payload.length, sha1⟩], none)
    | some _ =>
      if R e then
        let r := simpleWriteAttempts R payload sha1 (u + 1) rest
        (⟨u, payload, payload.length, sha1⟩ :: r.1, r.2)
      else
        ([⟨u, payload, payload.length, sha1⟩], e)

/-! ## The worker / `Close` interleaving around `wg.Wait`

The multipart path of `Close` runs `close(w.ready)`, `w.wg.Wait()`,
then `w.file.finishLargeFile(w.ctx)` (writer.go:247-249).  Each worker
goroutine (`thread`, writer.go:97-133) first calls the fallible
`getUploadPartURL`; on error it calls `w.setErr` and returns without
ever touching the `WaitGroup`; on success it calls `w.wg.Add(1)` —
inside the goroutine, after the network call — defers `w.wg.Done()`,
and loops receiving chunks until the channel is closed.  `stepWorker`
and `stepCloser` transcribe these thread programs; a schedule (a list
of thread choices) picks which thread takes its next enabled step,
`Wait` returning exactly when the `WaitGroup` counter is zero (the
`sync.WaitGroup` contract).  Successful `uploadPart` handling is elided
here: it touches neither the `WaitGroup` nor the error state, and its
retry behaviour is covered by `uploadChunkAttempts`. -/

/-- A worker goroutine's phase: still inside `getUploadPartURL`
(writer.go:100), in the receive loop after `wg.Add` (writer.go:105-111),
or exited. -/
inductive WPhase where
  | inGetURL : WPhase
  | inLoop : WPhase
  | exited : WPhase
deriving Repr, DecidableEq

/-- The closing thread's phase through writer.go:247-249: about to
`close(w.ready)`, blocked in `w.wg.Wait()`, about to call
`finishLargeFile`, or done. -/
inductive CPhase where
  | beforeCloseQueue : CPhase
  | inWait : CPhase
  | beforeFinish : CPhase
  | closerDone : CPhase
deriving Repr, DecidableEq

/-- Shared state of the close-time interleaving: per-worker
`getUploadPartURL` outcomes (`none` = success, `some e` = error `e`) and
phases, the `WaitGroup` counter, whether `w.ready` is closed, the
error-state cell (`w.err`/`w.cancel` as in `setErr`), the closer's
phase, and what was observed at the moment `finishLargeFile` was
invoked. -/
structure CloseRace where
  outcomes : List (Option Nat)
  phases : List WPhase
  wg : Nat
  readyClosed : Bool
  err : Option Nat
  cancels : Nat
  closer : CPhase
  finished : Bool
  errAtFinish : Option Nat
  allExitedAtFinish : Bool
deriving Repr, DecidableEq

/-- One step of worker `i`, as in `thread` (writer.go:97-133):
`getUploadPartURL` returning an error runs `w.setErr(err)` (first error
wins, firing cancel, as in writer.go:82-86) and exits without ever
calling `wg.Add`; returning successfully runs `w.wg.Add(1)` and enters
the receive loop; a worker in the loop can take its final step only once
the channel is closed — it returns and its deferred `w.wg.Done()` runs.
A worker whose network call has not yet returned, or that is blocked on
an open empty channel, has no enabled step. -/
def stepWorker (s : CloseRace) (i : Nat) : CloseRace :=
  match s.phases.get? i, s.outcomes.get? i with
  | some WPhase.inGetURL, some (some e) =>
    { s with phases := s.phases.set i WPhase.exited,
             err := if s.err = none then some e else s.err,
             cancels := if s.err = none then s.cancels + 1 else s.cancels }
  | some WPhase.inGetURL, some none =>
    { s with phases := s.phases.set i WPhase.inLoop, wg := s.wg + 1 }
  | some WPhase.inLoop, _ =>
    if s.readyClosed then
      { s with phases := s.phases.set i WPhase.exited, wg := s.wg - 1 }
    else s
  | _, _ => s

/-- One step of the closing thread (writer.go:247-249): close the
hand-off channel; return from `w.wg.Wait()` exactly when the `WaitGroup`
counter is zero; invoke `finishLargeFile`, recording what the error
state holds and whether every worker has exited at that moment. -/
def stepCloser (s : CloseRace) : CloseRace :=
  match s.closer with
  | CPhase.beforeCloseQueue =>
    { s with readyClosed := true, closer := CPhase.inWait }
  | CPhase.inWait =>
    if s.wg = 0 then { s with closer := CPhase.beforeFinish } else s
  | CPhase.beforeFinish =>
    { s with closer := CPhase.closerDone, finished := true,
             errAtFinish := s.err,
             allExitedAtFinish := s.phases.all (fun p => p == WPhase.exited) }
  | CPhase.closerDone => s

/-- One scheduled step: `some i` runs worker `i`, `none` runs the
closing thread. -/
def stepRace (s : CloseRace) (t : Option Nat) : CloseRace :=
  match t with
  | some i => stepWorker s i
  | none => stepCloser s

/-- Run a schedule from a state. -/
def runRace (s : CloseRace) (sched : List (Option Nat)) : CloseRace :=
  sched.foldl stepRace s

/-- The state as `Close` reaches writer.go:247: every worker still
inside its `getUploadPartURL` call, `WaitGroup` counter zero, channel
open, no error recorded. -/
def initRace (outcomes : List (Option Nat)) : CloseRace :=
  { outcomes := outcomes, phases := outcomes.map (fun _ => WPhase.inGetURL),
    wg := 0, readyClosed := false, err := none, cancels := 0,
    closer := CPhase.beforeCloseQueue, finished := false,
    errAtFinish := none, allExitedAtFinish := true }

/-! ## Projection lemmas for the elementary steps -/

theorem sendChunk_csize (w : Writer) : (sendChunk w).csize = w.csize := by
  show (startPool w).csize = w.csize
  unfold startPool
  split <;> rfl

theorem bufWrite_csize (w : Writer) (p : List Nat) : (bufWrite w p).csize = w.csize :=
  rfl

theorem bufWrite_nil (w : Writer) : bufWrite w [] = w := by
  simp [bufWrite]

theorem bufWrite_bufWrite (w : Writer) (a b : List Nat) :
    bufWrite (bufWrite w a) b = bufWrite w (a ++ b) := by
  simp [bufWrite]

theorem sendChunk_cbuf (w : Writer) : (sendChunk w).cbuf = [] := rfl

theorem sendChunk_chsh (w : Writer) : (sendChunk w).chsh = [] := rfl

theorem sendChunk_cidx (w : Writer) : (sendChunk w).cidx = w.cidx + 1 := by
  unfold sendChunk startPool
  split <;> rfl

theorem sendChunk_chunks (w : Writer) :
    (sendChunk w).chunks = w.chunks ++ [⟨w.cidx + 1, w.cbuf.length, w.chsh, w.cbuf⟩] := by
  unfold sendChunk startPool
  split <;> rfl

theorem sendChunk_started (w : Writer) : (sendChunk w).started = true := by
  unfold sendChunk startPool
  split <;> simp_all

theorem sendChunk_starts (w : Writer) :
    (sendChunk w).starts = if w.started then w.starts else w.starts + 1 := by
  unfold sendChunk startPool
  split <;> simp_all

theorem sendChunk_err (w : Writer) : (sendChunk w).err = w.err := by
  unfold sendChunk startPool
  split <;> rfl

theorem sendChunk_cancels (w : Writer) : (sendChunk w).cancels = w.cancels := by
  unfold sendChunk startPool
  split <;> rfl

theorem sendChunk_closed (w : Writer) : (sendChunk w).closed = w.closed := by
  unfold sendChunk startPool
  split <;> rfl

theorem sendChunk_simples (w : Writer) : (sendChunk w).simples = w.simples := by
  unfold sendChunk startPool
  split <;> rfl

theorem sendChunk_fins (w : Writer) : (sendChunk w).fins = w.fins := by
  unfold sendChunk startPool
  split <;> rfl

theorem sendChunk_obj (w : Writer) : (sendChunk w).obj = w.obj := by
  unfold sendChunk startPool
  split <;> rfl

/-! ### `writeAux` agrees with `writeList` -/

theorem writeAux_fits (w : Writer) (p : List Nat) (hc : 0 < w.csize)
    (h : p.length < w.csize - w.cbuf.length) :
    writeAux w p hc = (p.length, bufWrite w p) := by
  rw [writeAux]
  simp [h]

theorem writeAux_flush (w : Writer) (p : List Nat) (hc : 0 < w.csize)
    (h : ¬ p.length < w.csize - w.cbuf.length) :
    writeAux w p hc =
      let left := w.csize - w.cbuf.length
      let w1 := sendChunk (bufWrite w (p.take left))
      let r := writeAux w1 (p.drop left)
        (by rw [sendChunk_csize, bufWrite_csize]; exact hc)
      (left + r.1, r.2) := by
  rw [writeAux]
  simp [h]

/-- Filling below the threshold never flushes: byte-at-a-time writing is
just buffering. -/
theorem writeList_fill : ∀ (p : List Nat) (w : Writer),
    w.cbuf.length + p.length < w.csize → writeList w p = bufWrite w p := by
  intro p
  induction p with
  | nil => intro w _; rw [writeList, bufWrite_nil]
  | cons b bs ih =>
    intro w h
    rw [writeList, write1]
    have hb : ¬ ((bufWrite w [b]).csize ≤ (bufWrite w [b]).cbuf.length) := by
      simp only [bufWrite, List.length_append, List.length_cons, List.length_nil, not_le]
      simp only [List.length_cons] at h
      omega
    rw [if_neg hb]
    rw [ih (bufWrite w [b]) (by simp [bufWrite]; simp only [List.length_cons] at h; omega)]
    rw [bufWrite_bufWrite]
    rfl

/-- Filling to exactly the threshold flushes once, at the last byte. -/
theorem writeList_exact : ∀ (p : List Nat) (w : Writer), p ≠ [] →
    w.cbuf.length + p.length = w.csize →
    writeList w p = sendChunk (bufWrite w p) := by
  intro p
  induction p with
  | nil => intro w h; exact absurd rfl h
  | cons b bs ih =>
    intro w _ h
    rw [writeList, write1]
    rcases List.eq_nil_or_concat bs with hbs | _
    · subst hbs
      have hb : (bufWrite w [b]).csize ≤ (bufWrite w [b]).cbuf.length := by
        simp only [bufWrite, List.length_append, List.length_cons, List.length_nil]
        simp only [List.length_cons, List.length_nil] at h
        omega
      rw [if_pos hb]
      rw [writeList]
    · have hbs : bs ≠ [] := by
        rename_i hx
        obtain ⟨l, a, rfl⟩ := hx
        simp
      have hb : ¬ ((bufWrite w [b]).csize ≤ (bufWrite w [b]).cbuf.length) := by
        simp only [bufWrite, List.length_append, List.length_cons, List.length_nil, not_le]
        simp only [List.length_cons] at h
        have : 0 < bs.length := List.length_pos.mpr hbs
        omega
      rw [if_neg hb]
      rw [ih (bufWrite w [b]) hbs (by simp [bufWrite]; simp only [List.length_cons] at h; omega)]
      rw [bufWrite_bufWrite]
      rfl

theorem writeList_append (w : Writer) (a b : List Nat) :
    writeList w (a ++ b) = writeList (writeList w a) b := by
  induction a generalizing w with
  | nil => rw [List.nil_append, writeList]
  | cons x xs ih => rw [List.cons_append, writeList, writeList, ih]

/-- The slice-at-a-time loop of the Go code computes the same state as
the byte-at-a-time form, and accepts the whole input. -/
theorem writeAux_eq_writeList : ∀ (n : Nat) (p : List Nat) (w : Writer) (hc : 0 < w.csize),
    p.length ≤ n → w.cbuf.length < w.csize →
    writeAux w p hc = (p.length, writeList w p) := by
  intro n
  induction n with
  | zero =>
    intro p w hc hn hb
    have hp : p = [] := List.length_eq_zero.mp (Nat.le_zero.mp hn)
    subst hp
    rw [writeAux_fits w [] hc (by simpa using Nat.sub_pos_of_lt hb), writeList, bufWrite_nil]
  | succ n ih =>
    intro p w hc hn hb
    by_cases h : p.length < w.csize - w.cbuf.length
    · rw [writeAux_fits w p hc h, writeList_fill p w (by omega)]
    · rw [writeAux_flush w p hc h]
      simp only []
      have hleft1 : 0 < w.csize - w.cbuf.length := Nat.sub_pos_of_lt hb
      have hleftp : w.csize - w.cbuf.length ≤ p.length := Nat.le_of_not_lt h
      have htake : (p.take (w.csize - w.cbuf.length)).length = w.csize - w.cbuf.length :=
        List.length_take_of_le hleftp
      have hW1 : sendChunk (bufWrite w (p.take (w.csize - w.cbuf.length)))
          = writeList w (p.take (w.csize - w.cbuf.length)) := by
        rw [writeList_exact _ w (by
            intro hx
            rw [hx] at htake
            simp at htake
            omega)
          (by simp [bufWrite] at htake ⊢; omega)]
      have hrec := ih (p.drop (w.csize - w.cbuf.length))
        (sendChunk (bufWrite w (p.take (w.csize - w.cbuf.length))))
        (by rw [sendChunk_csize, bufWrite_csize]; exact hc)
        (by rw [List.length_drop]; omega)
        (by rw [sendChunk_cbuf]; simpa [sendChunk_csize, bufWrite_csize] using hc)
      rw [hrec]
      have hjoin : writeList (sendChunk (bufWrite w (p.take (w.csize - w.cbuf.length))))
          (p.drop (w.csize - w.cbuf.length)) = writeList w p := by
        rw [hW1, ← writeList_append, List.take_append_drop]
      rw [hjoin]
      simp only [List.length_drop]
      congr 1
      omega

/-! ## The state invariant of the write loop -/

theorem write1_csize (w : Writer) (b : Nat) : (write1 w b).csize = w.csize := by
  unfold write1
  split
  · rw [sendChunk_csize, bufWrite_csize]
  · rw [bufWrite_csize]

theorem write1_err (w : Writer) (b : Nat) : (write1 w b).err = w.err := by
  unfold write1
  split
  · rw [sendChunk_err]
    rfl
  · rfl

theorem write1_stable (w : Writer) (b : Nat) :
    (write1 w b).err = w.err ∧ (write1 w b).cancels = w.cancels ∧
    (write1 w b).closed = w.closed ∧ (write1 w b).simples = w.simples ∧
    (write1 w b).fins = w.fins ∧ (write1 w b).obj = w.obj := by
  unfold write1
  split
  · exact ⟨sendChunk_err _, sendChunk_cancels _, sendChunk_closed _,
      sendChunk_simples _, sendChunk_fins _, sendChunk_obj _⟩
  · exact ⟨rfl, rfl, rfl, rfl, rfl, rfl⟩

theorem content_write1 (w : Writer) (b : Nat) :
    content (write1 w b) = content w ++ [b] := by
  unfold write1 content
  split
  · rw [sendChunk_cbuf, sendChunk_chunks]
    simp [bufWrite]
  · simp [bufWrite]

/-- One byte preserves the invariant (assuming a positive threshold). -/
theorem write1_Inv (w : Writer) (b : Nat) (hc : 0 < w.csize) (h : Inv w) :
    Inv (write1 w b) := by
  obtain ⟨h1, h2, h3, h4, h5, h6, h7⟩ := h
  have hb : w.cbuf.length < w.csize := by
    rcases h7 with h7 | ⟨h7, -⟩
    · exact h7
    · omega
  unfold write1
  by_cases hf : (bufWrite w [b]).csize ≤ (bufWrite w [b]).cbuf.length
  · rw [if_pos hf]
    have hlen : w.cbuf.length + 1 = w.csize := by
      simp only [bufWrite, List.length_append, List.length_cons, List.length_nil] at hf
      omega
    refine ⟨?_, ?_, ?_, ?_, ?_, ?_, ?_⟩
    · rw [sendChunk_chsh, sendChunk_cbuf]
    · rw [sendChunk_cidx, sendChunk_chunks]
      simp only [bufWrite]
      simp [h2]
    · rw [sendChunk_chunks]
      simp only [bufWrite]
      rw [List.map_append, h2, h3]
      simp only [List.map_cons, List.map_nil, List.length_append, List.length_cons,
        List.length_nil]
      have hr := @List.range'_concat 1 1 w.chunks.length
      simp only [one_mul] at hr
      rw [Nat.add_comm 1 w.chunks.length] at hr
      rw [← hr]
    · rw [sendChunk_chunks]
      intro ch hch
      rw [sendChunk_csize, bufWrite_csize]
      rcases List.mem_append.mp hch with hch | hch
      · exact h4 ch hch
      · simp only [List.mem_singleton] at hch
        subst hch
        refine ⟨?_, rfl, ?_⟩
        · simp only [bufWrite]
          rw [h1]
        · simp only [bufWrite, List.length_append, List.length_cons, List.length_nil]
          omega
    · rw [sendChunk_started, sendChunk_chunks]
      simp
    · rw [sendChunk_starts, sendChunk_chunks]
      by_cases hce : w.chunks.isEmpty
      · simp [bufWrite, h5, h6, hce]
      · simp [bufWrite, h5, h6, hce]
    · rw [sendChunk_cbuf, sendChunk_csize, bufWrite_csize]
      left
      simpa using hc
  · rw [if_neg hf]
    simp only [bufWrite, List.length_append, List.length_cons, List.length_nil, not_le] at hf
    refine ⟨?_, h2, h3, ?_, h5, h6, ?_⟩
    · simp only [bufWrite]
      rw [h1]
    · intro ch hch
      exact h4 ch hch
    · left
      simp only [bufWrite, List.length_append, List.length_cons, List.length_nil]
      omega

theorem writeList_csize (p : List Nat) : ∀ (w : Writer), (writeList w p).csize = w.csize := by
  induction p with
  | nil => intro w; rw [writeList]
  | cons b bs ih => intro w; rw [writeList, ih, write1_csize]

theorem writeList_spec (p : List Nat) : ∀ (w : Writer), 0 < w.csize → Inv w →
    Inv (writeList w p) ∧ content (writeList w p) = content w ++ p ∧
    (writeList w p).err = w.err ∧ (writeList w p).cancels = w.cancels ∧
    (writeList w p).closed = w.closed ∧ (writeList w p).simples = w.simples ∧
    (writeList w p).fins = w.fins ∧ (writeList w p).obj = w.obj := by
  induction p with
  | nil =>
    intro w _ h
    rw [writeList]
    exact ⟨h, by simp [content], rfl, rfl, rfl, rfl, rfl, rfl⟩
  | cons b bs ih =>
    intro w hc h
    rw [writeList]
    have hc1 : 0 < (write1 w b).csize := by rw [write1_csize]; exact hc
    obtain ⟨i1, i2, i3, i4, i5, i6, i7, i8⟩ := ih (write1 w b) hc1 (write1_Inv w b hc h)
    obtain ⟨s1, s2, s3, s4, s5, s6⟩ := write1_stable w b
    refine ⟨i1, ?_, by rw [i3, s1], by rw [i4, s2], by rw [i5, s3], by rw [i6, s4],
      by rw [i7, s5], by rw [i8, s6]⟩
    rw [i2, content_write1]
    simp

/-! ## One `Write` call, in executable form -/

theorem effSize_pos (c : Nat) : 0 < effSize c := by
  unfold effSize
  split <;> omega

theorem effSize_effSize (c : Nat) : effSize (effSize c) = effSize c := by
  unfold effSize
  split <;> simp

theorem Write_err (w : Writer) (p : List Nat) (e : Nat) (h : w.err = some e) :
    Write w p = (0, some e, w) := by
  simp [Write, getErr, h]

theorem set_csize_self (w : Writer) : { w with csize := w.csize } = w := rfl

theorem Write_ok (w : Writer) (p : List Nat) (h : w.err = none)
    (hb : w.cbuf.length < w.csize ∨ (w.csize = 0 ∧ w.cbuf = [])) :
    Write w p = (p.length, none, WriteL w p) := by
  by_cases h0 : w.csize = 0
  · have hcb : w.cbuf = [] := by
      rcases hb with hb | ⟨-, hb⟩
      · omega
      · exact hb
    simp only [Write, getErr, h]
    rw [dif_pos h0]
    rw [writeAux_eq_writeList p.length p _ (by simp) (le_refl _) (by simp [hcb])]
    simp [WriteL, h, effSize, h0]
  · have hcb : w.cbuf.length < w.csize := by
      rcases hb with hb | ⟨hb, -⟩
      · exact hb
      · exact absurd hb h0
    simp only [Write, getErr, h]
    rw [dif_neg h0]
    rw [writeAux_eq_writeList p.length p _ (Nat.pos_of_ne_zero h0) (le_refl _) hcb]
    have he : effSize w.csize = w.csize := by simp [effSize, h0]
    have hW : WriteL w p = writeList w p := by
      unfold WriteL
      split

      · rename_i e heq
        rw [h] at heq
        exact Option.noConfusion heq
      · rw [he, set_csize_self]
    rw [hW]

theorem write1_bufbound (w : Writer) (b : Nat) (hc : 0 < w.csize)
    (_h : w.cbuf.length < w.csize) : (write1 w b).cbuf.length < w.csize := by
  unfold write1
  split
  · rw [sendChunk_cbuf]
    simpa using hc
  · rename_i hf
    simp only [bufWrite, List.length_append, List.length_cons, List.length_nil, not_le] at hf ⊢
    omega

theorem writeList_bufbound (p : List Nat) : ∀ (w : Writer), 0 < w.csize →
    w.cbuf.length < w.csize → (writeList w p).cbuf.length < (writeList w p).csize := by
  induction p with
  | nil =>
    intro w _ h
    rw [writeList]
    exact h
  | cons b bs ih =>
    intro w hc h
    rw [writeList]
    have := ih (write1 w b) (by rw [write1_csize]; exact hc)
      (by rw [write1_csize]; exact write1_bufbound w b hc h)
    exact this

theorem WriteL_bufOK (w : Writer) (p : List Nat)
    (hb : w.cbuf.length < w.csize ∨ (w.csize = 0 ∧ w.cbuf = [])) :
    (WriteL w p).cbuf.length < (WriteL w p).csize ∨
      ((WriteL w p).csize = 0 ∧ (WriteL w p).cbuf = []) := by
  unfold WriteL
  split
  · exact hb
  · left
    apply writeList_bufbound
    · exact effSize_pos w.csize
    · show w.cbuf.length < effSize w.csize
      rcases hb with hb | ⟨h0, hcb⟩
      · have h0 : ¬ w.csize = 0 := by omega
        simpa [effSize, h0] using hb
      · simp [hcb, effSize_pos]

/-- `runWrites` (the Go `Write` calls) computes the same states as the
executable `runList`. -/
theorem runWrites_eq (ps : List (List Nat)) : ∀ (w : Writer),
    (w.cbuf.length < w.csize ∨ (w.csize = 0 ∧ w.cbuf = [])) →
    runWrites w ps = runList w ps := by
  induction ps with
  | nil => intro w _; rfl
  | cons p ps ih =>
    intro w hb
    show runWrites ((Write w p).2.2) ps = runList (WriteL w p) ps
    cases herr : w.err with
    | some e =>
      rw [Write_err w p e herr]
      have : WriteL w p = w := by simp [WriteL, herr]
      rw [this]
      exact ih w hb
    | none =>
      rw [Write_ok w p herr hb]
      exact ih (WriteL w p) (WriteL_bufOK w p hb)

theorem Inv_set_csize (w : Writer) (h : Inv w) : Inv { w with csize := effSize w.csize } := by
  by_cases h0 : w.csize = 0
  · obtain ⟨h1, h2, h3, h4, h5, h6, h7⟩ := h
    have hcb : w.cbuf = [] ∧ w.chunks = [] := by
      rcases h7 with h7 | ⟨-, ha, hb⟩
      · omega
      · exact ⟨ha, hb⟩
    refine ⟨h1, h2, h3, ?_, h5, h6, ?_⟩
    · intro ch hch
      rw [hcb.2] at hch
      simp at hch
    · left
      simp [hcb.1, effSize_pos]
  · have he : effSize w.csize = w.csize := by simp [effSize, h0]
    rw [he, set_csize_self]
    exact h

theorem WriteL_spec (w : Writer) (p : List Nat) (h : Inv w) (he : w.err = none) :
    Inv (WriteL w p) ∧ content (WriteL w p) = content w ++ p ∧
    (WriteL w p).err = none ∧ (WriteL w p).cancels = w.cancels ∧
    (WriteL w p).closed = w.closed ∧ (WriteL w p).simples = w.simples ∧
    (WriteL w p).fins = w.fins ∧ (WriteL w p).obj = w.obj ∧
    (WriteL w p).csize = effSize w.csize := by
  have hbase : Inv { w with csize := effSize w.csize } := Inv_set_csize w h
  have hc : (0 : Nat) < ({ w with csize := effSize w.csize } : Writer).csize := effSize_pos _
  obtain ⟨i1, i2, i3, i4, i5, i6, i7, i8⟩ := writeList_spec p _ hc hbase
  have hW : WriteL w p = writeList { w with csize := effSize w.csize } p := by
    unfold WriteL
    split
    · rename_i e heq
      rw [he] at heq
      exact Option.noConfusion heq
    · rfl
  rw [hW]
  refine ⟨i1, ?_, ?_, ?_, ?_, ?_, ?_, ?_, ?_⟩
  · rw [i2]
    rfl
  · rw [i3]
    exact he
  · rw [i4]
  · rw [i5]
  · rw [i6]
  · rw [i7]
  · rw [i8]
  · rw [writeList_csize]

theorem runList_spec (ps : List (List Nat)) : ∀ (w : Writer), Inv w → w.err = none →
    Inv (runList w ps) ∧ content (runList w ps) = content w ++ ps.flatten ∧
    (runList w ps).err = none ∧ (runList w ps).cancels = w.cancels ∧
    (runList w ps).closed = w.closed ∧ (runList w ps).simples = w.simples ∧
    (runList w ps).fins = w.fins ∧ (runList w ps).obj = w.obj ∧
    (ps ≠ [] → (runList w ps).csize = effSize w.csize) := by
  induction ps with
  | nil =>
    intro w h he
    exact ⟨h, by simp [runList], he, rfl, rfl, rfl, rfl, rfl, by intro hx; exact absurd rfl hx⟩
  | cons p ps ih =>
    intro w h he
    obtain ⟨j1, j2, j3, j4, j5, j6, j7, j8, j9⟩ := WriteL_spec w p h he
    have hstep : runList w (p :: ps) = runList (WriteL w p) ps := rfl
    obtain ⟨i1, i2, i3, i4, i5, i6, i7, i8, i9⟩ := ih (WriteL w p) j1 j3
    rw [hstep]
    refine ⟨i1, ?_, i3, by rw [i4, j4], by rw [i5, j5], by rw [i6, j6], by rw [i7, j7],
      by rw [i8, j8], ?_⟩
    · rw [i2, j2]
      simp
    · intro _
      rcases List.eq_nil_or_concat ps with hps | hps
      · subst hps
        simpa [runList] using j9
      · have hne : ps ≠ [] := by
          obtain ⟨l, a, rfl⟩ := hps
          simp
        rw [i9 hne, j9, effSize_effSize]

/-- The fresh session satisfies the invariant. -/
theorem initW_Inv (cu c : Nat) : Inv (initW cu c) := by
  unfold Inv initW
  refine ⟨rfl, rfl, rfl, ?_, rfl, rfl, ?_⟩
  · intro ch hch
    simp at hch
  · by_cases h0 : c = 0
    · right
      exact ⟨h0, rfl, rfl⟩
    · left
      simp only [List.length_nil]
      omega

/-! ## `Close` helper lemmas -/

theorem Close_closed_state (w : Writer) (h : w.closed = true) : Close w = (w.err, w) := by
  simp [Close, getErr, h]

theorem Close_simple_state (w : Writer) (h0 : w.closed = false) (h1 : w.cidx = 0) :
    Close w = (w.err, { w with closed := true, simples := w.simples + 1,
                               obj := some w.cbuf }) := by
  simp [Close, getErr, h0, h1]

theorem Close_multi_trailing (w : Writer) (h0 : w.closed = false) (h1 : w.cidx ≠ 0)
    (h2 : 0 < w.cbuf.length) :
    Close w = (w.err,
      { sendChunk { w with closed := true } with
          fins := w.fins + 1,
          obj := some ((w.chunks.map Chunk.buf).flatten ++ w.cbuf) }) := by
  simp only [Close, getErr, h0, Bool.false_eq_true, if_neg, ite_false]
  rw [if_neg (by simpa using h1), if_pos (by simpa using h2)]
  have hobj : ((sendChunk { w with closed := true }).chunks.map Chunk.buf).flatten
      = (w.chunks.map Chunk.buf).flatten ++ w.cbuf := by
    rw [sendChunk_chunks]
    simp
  rw [hobj]
  have herr : (sendChunk { w with closed := true }).err = w.err := by
    rw [sendChunk_err]
  have hfins : (sendChunk { w with closed := true }).fins = w.fins := by
    rw [sendChunk_fins]
  rw [herr, hfins]

theorem Close_multi_empty (w : Writer) (h0 : w.closed = false) (h1 : w.cidx ≠ 0)
    (h2 : w.cbuf.length = 0) :
    Close w = (w.err,
      { w with closed := true, fins := w.fins + 1,
               obj := some ((w.chunks.map Chunk.buf).flatten) }) := by
  simp only [Close, getErr, h0, Bool.false_eq_true, if_neg, ite_false]
  rw [if_neg (by simpa using h1), if_neg (by simpa using h2)]

theorem Close_closed_true (w : Writer) : (Close w).2.closed = true := by
  by_cases hc : w.closed
  · rw [Close_closed_state w hc]
    exact hc
  · have hc' : w.closed = false := by simpa using hc
    by_cases h1 : w.cidx = 0
    · rw [Close_simple_state w hc' h1]
    · by_cases h2 : 0 < w.cbuf.length
      · rw [Close_multi_trailing w hc' h1 h2]
        show (sendChunk { w with closed := true }).closed = true
        rw [sendChunk_closed]
      · rw [Close_multi_empty w hc' h1 (by omega)]

theorem Close_fst_eq_err (w : Writer) : (Close w).1 = (Close w).2.err := by
  by_cases hc : w.closed
  · rw [Close_closed_state w hc]
  · have hc' : w.closed = false := by simpa using hc
    by_cases h1 : w.cidx = 0
    · rw [Close_simple_state w hc' h1]
    · by_cases h2 : 0 < w.cbuf.length
      · rw [Close_multi_trailing w hc' h1 h2]
        show w.err = (sendChunk { w with closed := true }).err
        rw [sendChunk_err]
      · rw [Close_multi_empty w hc' h1 (by omega)]

/-! ## Facts about a whole session: writes from a fresh state -/

theorem WriteL_csize (w : Writer) (p : List Nat) (he : w.err = none) :
    (WriteL w p).csize = effSize w.csize := by
  unfold WriteL
  split
  · rename_i e heq
    rw [he] at heq
    exact Option.noConfusion heq
  · rw [writeList_csize]

theorem WriteL_err_none (w : Writer) (p : List Nat) (he : w.err = none) :
    (WriteL w p).err = none := by
  unfold WriteL
  split
  · exact he
  · rename_i heq
    have : ∀ q : List Nat, ∀ v : Writer, (writeList v q).err = v.err := by
      intro q
      induction q with
      | nil => intro v; rw [writeList]
      | cons b bs ih => intro v; rw [writeList, ih, write1_err]
    rw [this]
    exact he

/-- A non-empty sequence of `Write` calls is one long `writeList` over
the concatenated payload (after the threshold has been defaulted):
the chunking depends only on the byte stream, not on its partition
into calls. -/
theorem runList_flatten (ps : List (List Nat)) : ∀ (w : Writer), w.err = none → ps ≠ [] →
    runList w ps = writeList { w with csize := effSize w.csize } ps.flatten := by
  induction ps with
  | nil => intro w _ h; exact absurd rfl h
  | cons p ps ih =>
    intro w he _
    have hstep : runList w (p :: ps) = runList (WriteL w p) ps := rfl
    have hWp : WriteL w p = writeList { w with csize := effSize w.csize } p := by
      unfold WriteL
      split
      · rename_i e heq
        rw [he] at heq
        exact Option.noConfusion heq
      · rfl
    rcases List.eq_nil_or_concat ps with hps | hps
    · subst hps
      rw [hstep, hWp]
      show writeList { w with csize := effSize w.csize } p
          = writeList { w with csize := effSize w.csize } (p ++ [])
      rw [List.append_nil]
    · have hne : ps ≠ [] := by
        obtain ⟨l, a, rfl⟩ := hps
        simp
      rw [hstep, ih (WriteL w p) (WriteL_err_none w p he) hne]
      have hcs : { WriteL w p with csize := effSize (WriteL w p).csize } = WriteL w p := by
        rw [WriteL_csize w p he, effSize_effSize, ← WriteL_csize w p he, set_csize_self]
      rw [hcs, hWp, ← writeList_append]
      rfl

theorem initW_bufOK (cu c : Nat) :
    (initW cu c).cbuf.length < (initW cu c).csize ∨
      ((initW cu c).csize = 0 ∧ (initW cu c).cbuf = []) := by
  by_cases h0 : c = 0
  · right
    exact ⟨h0, rfl⟩
  · left
    show ([] : List Nat).length < c
    simp only [List.length_nil]
    omega

/-- Everything the claims need about the state after any sequence of
`Write` calls from a fresh session. -/
theorem run_spec (cu c : Nat) (ps : List (List Nat)) :
    Inv (runWrites (initW cu c) ps) ∧
    (runWrites (initW cu c) ps).err = none ∧
    content (runWrites (initW cu c) ps) = ps.flatten ∧
    (runWrites (initW cu c) ps).closed = false ∧
    (runWrites (initW cu c) ps).cancels = 0 ∧
    (runWrites (initW cu c) ps).simples = 0 ∧
    (runWrites (initW cu c) ps).fins = 0 ∧
    (runWrites (initW cu c) ps).obj = none ∧
    (ps ≠ [] → (runWrites (initW cu c) ps).csize = effSize c) := by
  rw [runWrites_eq ps (initW cu c) (initW_bufOK cu c)]
  obtain ⟨i1, i2, i3, i4, i5, i6, i7, i8, i9⟩ :=
    runList_spec ps (initW cu c) (initW_Inv cu c) rfl
  refine ⟨i1, i3, ?_, by rw [i5]; rfl, by rw [i4]; rfl, by rw [i6]; rfl, by rw [i7]; rfl,
    by rw [i8]; rfl, i9⟩
  rw [i2]
  rfl

/-- The flattened length of a prefix of equally-sized buffers. -/
theorem flatten_len_const (l : List Chunk) (s : Nat) :
    (∀ ch ∈ l, ch.buf.length = s) →
    ((l.map Chunk.buf).flatten).length = l.length * s := by
  induction l with
  | nil => intro _; simp
  | cons ch t ih =>
    intro h
    simp only [List.map_cons, List.flatten_cons, List.length_append, List.length_cons]
    rw [ih (fun x hx => h x (List.mem_cons_of_mem ch hx)), h ch (List.mem_cons_self ch t)]
    ring

/-! ## Error-state helper lemmas -/

theorem setErr_none (w : Writer) : setErr w none = w := rfl

theorem setErr_some_fresh (w : Writer) (e : Nat) (h : w.err = none) :
    setErr w (some e) = { w with err := some e, cancels := w.cancels + 1 } := by
  simp [setErr, h]

theorem setErr_stuck_one (w : Writer) (x : Option Nat) (h : w.err ≠ none) :
    setErr w x = w := by
  cases x with
  | none => rfl
  | some a => simp [setErr, h]

theorem foldl_setErr_stuck (es : List (Option Nat)) : ∀ (w : Writer), w.err ≠ none →
    es.foldl setErr w = w := by
  induction es with
  | nil => intro w _; rfl
  | cons e es ih =>
    intro w h
    show es.foldl setErr (setErr w e) = w
    rw [setErr_stuck_one w e h]
    exact ih w h

theorem foldl_setErr_spec (es : List (Option Nat)) : ∀ (w : Writer), w.err = none →
    (es.foldl setErr w).err = es.findSome? id ∧
    (es.foldl setErr w).cancels = w.cancels + (if es.any Option.isSome then 1 else 0) := by
  induction es with
  | nil =>
    intro w h
    exact ⟨h, by simp⟩
  | cons e es ih =>
    intro w h
    cases e with
    | none =>
      have hstep : (none :: es).foldl setErr w = es.foldl setErr w := rfl
      rw [hstep]
      obtain ⟨i1, i2⟩ := ih w h
      refine ⟨by rw [i1]; simp, by rw [i2]; simp⟩
    | some a =>
      have hstep : (some a :: es).foldl setErr w = es.foldl setErr (setErr w (some a)) := rfl
      rw [hstep, setErr_some_fresh w a h]
      rw [foldl_setErr_stuck es _ (by simp)]
      refine ⟨by simp, by simp⟩

/-! ## Close-interleaving helper lemmas -/

/-- Sanity check of the interleaving model: under a schedule in which
worker 1's `getUploadPartURL` returns (with an error) before the closer
reaches `wg.Wait`, the intended behaviour holds — every worker has
exited when `finishLargeFile` is invoked and the error state observed
there is already the session's final value. -/
theorem runRace_good_schedule :
    (runRace (initRace [none, some 5]) [some 1, some 0, none, some 0, none, none]).finished
        = true ∧
    (runRace (initRace [none, some 5])
        [some 1, some 0, none, some 0, none, none]).allExitedAtFinish = true ∧
    (runRace (initRace [none, some 5])
        [some 1, some 0, none, some 0, none, none]).errAtFinish = some 5 ∧
    (runRace (initRace [none, some 5])
        [some 1, some 0, none, some 0, none, none]).errAtFinish
      = (runRace (initRace [none, some 5])
          [some 1, some 0, none, some 0, none, none]).err := by
  decide

/-! ## Upload-retry helper lemmas -/

theorem uploadChunkAttempts_args (R : Option Nat → Bool) (ch : Chunk) :
    ∀ (sched : List (Nat × Option Nat)) (lease : Nat),
    ∀ a ∈ (uploadChunkAttempts R ch lease sched).1,
      a.payload = ch.buf ∧ a.sha1 = ch.sha1 ∧ a.size = ch.size ∧ a.id = ch.id := by
  intro sched
  induction sched with
  | nil =>
    intro lease a ha
    simp only [uploadChunkAttempts, List.mem_singleton] at ha
    subst ha
    exact ⟨rfl, rfl, rfl, rfl⟩
  | cons o rest ih =>
    intro lease a ha
    obtain ⟨n, e⟩ := o
    simp only [uploadChunkAttempts] at ha
    by_cases h1 : n = ch.size ∧ e = none
    · rw [if_pos h1] at ha
      simp only [List.mem_singleton] at ha
      subst ha
      exact ⟨rfl, rfl, rfl, rfl⟩
    · rw [if_neg h1] at ha
      by_cases h2 : R e
      · rw [if_pos h2] at ha
        simp only [List.mem_cons] at ha
        rcases ha with ha | ha
        · subst ha
          exact ⟨rfl, rfl, rfl, rfl⟩
        · exact ih (lease + 1) a ha
      · rw [if_neg h2] at ha
        simp only [List.mem_singleton] at ha
        subst ha
        exact ⟨rfl, rfl, rfl, rfl⟩

theorem uploadChunkAttempts_leases (R : Option Nat → Bool) (ch : Chunk) :
    ∀ (sched : List (Nat × Option Nat)) (lease : Nat),
    (uploadChunkAttempts R ch lease sched).1.map PartAttempt.lease
      = List.range' lease (uploadChunkAttempts R ch lease sched).1.length := by
  intro sched
  induction sched with
  | nil => intro lease; rfl
  | cons o rest ih =>
    intro lease
    obtain ⟨n, e⟩ := o
    simp only [uploadChunkAttempts]
    by_cases h1 : n = ch.size ∧ e = none
    · rw [if_pos h1]
      rfl
    · rw [if_neg h1]
      by_cases h2 : R e
      · rw [if_pos h2]
        simp only [List.map_cons, List.length_cons]
        rw [ih (lease + 1)]
        rw [@List.range'_succ lease ((uploadChunkAttempts R ch (lease + 1) rest).1.length) 1]
      · rw [if_neg h2]
        rfl

theorem uploadChunkAttempts_transient (R : Option Nat → Bool) (ch : Chunk)
    (lease n : Nat) (e : Option Nat)
    (hfail : ¬ (n = ch.size ∧ e = none)) (hR : R e = true) :
    uploadChunkAttempts R ch lease [(n, e)] =
      ([⟨lease, ch.buf, ch.sha1, ch.size, ch.id⟩,
        ⟨lease + 1, ch.buf, ch.sha1, ch.size, ch.id⟩], none, lease + 1) := by
  simp only [uploadChunkAttempts]
  rw [if_neg hfail, if_pos hR]

theorem simpleWriteAttempts_args (R : Option Nat → Bool) (payload sha1 : List Nat) :
    ∀ (sched : List (Option Nat)) (u : Nat),
    ∀ a ∈ (simpleWriteAttempts R payload sha1 u sched).1,
      a.payload = payload ∧ a.sha1 = sha1 ∧ a.size = payload.length := by
  intro sched
  induction sched with
  | nil =>
    intro u a ha
    simp only [simpleWriteAttempts, List.mem_singleton] at ha
    subst ha
    exact ⟨rfl, rfl, rfl⟩
  | cons e rest ih =>
    intro u a ha
    cases e with
    | none =>
      simp only [simpleWriteAttempts, List.mem_singleton] at ha
      subst ha
      exact ⟨rfl, rfl, rfl⟩
    | some x =>
      simp only [simpleWriteAttempts] at ha
      by_cases h2 : R (some x)
      · rw [if_pos h2] at ha
        simp only [List.mem_cons] at ha
        rcases ha with ha | ha
        · subst ha
          exact ⟨rfl, rfl, rfl⟩
        · exact ih (u + 1) a ha
      · rw [if_neg h2] at ha
        simp only [List.mem_singleton] at ha
        subst ha
        exact ⟨rfl, rfl, rfl⟩

theorem simpleWriteAttempts_transient (R : Option Nat → Bool) (payload sha1 : List Nat)
    (u : Nat) (e : Nat) (hR : R (some e) = true) :
    simpleWriteAttempts R payload sha1 u [some e] =
      ([⟨u, payload, payload.length, sha1⟩, ⟨u + 1, payload, payload.length, sha1⟩],
       none) := by
  simp only [simpleWriteAttempts]
  rw [if_pos hR]

/-! ## Claim theorems -/

/-- C5: `setErr` with a nil error leaves the error state unchanged; the
first `setErr` with a non-nil error records it and fires cancellation;
every later `setErr` leaves the record unchanged and does not fire
cancellation again.  Over any call sequence from an error-free state the
recorded error is the first non-nil argument (never overwritten) and
cancellation fires at most once, exactly on the nil-to-non-nil
transition. -/
theorem writer_C5_setErr (w : Writer) (e : Nat) (es : List (Option Nat)) :
    setErr w none = w ∧
    (w.err = none →
      setErr w (some e) = { w with err := some e, cancels := w.cancels + 1 }) ∧
    (w.err ≠ none → ∀ x, setErr w x = w) ∧
    (w.err = none →
      (es.foldl setErr w).err = es.findSome? id ∧
      (es.foldl setErr w).cancels
        = w.cancels + (if es.any Option.isSome then 1 else 0)) :=
  ⟨setErr_none w,
   fun h => setErr_some_fresh w e h,
   fun h x => setErr_stuck_one w x h,
   fun h => foldl_setErr_spec es w h⟩

/-- Witness for C5 at a concrete state and call sequence. -/
theorem writer_C5_witness :
    (initW 1 10).err = none ∧
    ((([none, some 3, none, some 4] : List (Option Nat)).foldl setErr (initW 1 10)).err
        = ([none, some 3, none, some 4] : List (Option Nat)).findSome? id ∧
      (([none, some 3, none, some 4] : List (Option Nat)).foldl setErr (initW 1 10)).cancels
        = (initW 1 10).cancels +
          (if ([none, some 3, none, some 4] : List (Option Nat)).any Option.isSome then 1
           else 0)) :=
  ⟨rfl, (writer_C5_setErr (initW 1 10) 3 [none, some 3, none, some 4]).2.2.2 rfl⟩

/-- C6: the `done.Do` body of `Close` runs exactly once: calling `Close`
again performs no further remote calls and no state change, and returns
the same error value (the recorded error) established by the first
`Close`. -/
theorem writer_C6_close_idempotent (w : Writer) :
    Close ((Close w).2) = ((Close w).1, (Close w).2) := by
  rw [Close_closed_state ((Close w).2) (Close_closed_true w)]
  rw [Close_fst_eq_err w]

/-- C8: the claim fails on the code.  `w.wg.Add(1)` runs inside each
worker goroutine, after the fallible `getUploadPartURL` (writer.go:100
and writer.go:105), so a worker whose network call has not yet returned
is uncounted, and `w.wg.Wait()` in `Close` (writer.go:248) can return
while that worker is still running.  Concretely, with two workers
(worker 0 succeeding, worker 1's `getUploadPartURL` failing with error
5) and the schedule below — worker 0 registers and exits, the closer
closes the channel, `Wait` sees counter 0 and returns, finish is
invoked, and only then worker 1's call returns — `finishLargeFile` is
invoked while worker 1 has not exited (`allExitedAtFinish = false`),
the error state at that moment is still `none`, and worker 1's `setErr`
lands afterwards, leaving the final session error `some 5`.  Both
halves of the claim fail: `Close` did not wait for every worker to
exit before finish, and the error state did not hold its final value
when finish was attempted. -/
theorem writer_C8_wait_race :
    (runRace (initRace [none, some 5]) [some 0, none, some 0, none, none, some 1]).finished
        = true ∧
    (runRace (initRace [none, some 5])
        [some 0, none, some 0, none, none, some 1]).allExitedAtFinish = false ∧
    (runRace (initRace [none, some 5])
        [some 0, none, some 0, none, none, some 1]).errAtFinish = none ∧
    (runRace (initRace [none, some 5])
        [some 0, none, some 0, none, none, some 1]).err = some 5 ∧
    (runRace (initRace [none, some 5])
        [some 0, none, some 0, none, none, some 1]).errAtFinish
      ≠ (runRace (initRace [none, some 5])
          [some 0, none, some 0, none, none, some 1]).err := by
  decide

/-- C9: a `Write` call made while an error is already recorded accepts 0
bytes, returns the recorded error, and leaves the whole session state
unchanged. -/
theorem writer_C9_write_after_error (w : Writer) (p : List Nat) (e : Nat)
    (h : w.err = some e) :
    Write w p = (0, some e, w) :=
  Write_err w p e h

/-- Witness for C9 at a concrete errored state. -/
theorem writer_C9_witness :
    ({ initW 1 10 with err := some 7 } : Writer).err = some 7 ∧
    Write { initW 1 10 with err := some 7 } [1, 2, 3]
      = (0, some 7, { initW 1 10 with err := some 7 }) :=
  ⟨rfl, writer_C9_write_after_error { initW 1 10 with err := some 7 } [1, 2, 3] 7 rfl⟩

/-- C3: a failed upload attempt (part upload reporting a short count or
an error, or simple upload reporting an error) that the external retry
predicate classifies retriable is retried through a freshly obtained
lease/upload URL with the same payload, digest, size and part index —
the chunk is never mutated, re-split or skipped — and one transient
failure followed by success yields overall success with exactly one
retry, a fresh lease, and the same single part index. -/
theorem writer_C3_retry :
    (∀ (R : Option Nat → Bool) (ch : Chunk) (sched : List (Nat × Option Nat)) (lease : Nat),
        (∀ a ∈ (uploadChunkAttempts R ch lease sched).1,
            a.payload = ch.buf ∧ a.sha1 = ch.sha1 ∧ a.size = ch.size ∧ a.id = ch.id) ∧
        (uploadChunkAttempts R ch lease sched).1.map PartAttempt.lease
          = List.range' lease (uploadChunkAttempts R ch lease sched).1.length) ∧
    (∀ (R : Option Nat → Bool) (ch : Chunk) (lease n : Nat) (e : Option Nat),
        ¬ (n = ch.size ∧ e = none) → R e = true →
        uploadChunkAttempts R ch lease [(n, e)] =
          ([⟨lease, ch.buf, ch.sha1, ch.size, ch.id⟩,
            ⟨lease + 1, ch.buf, ch.sha1, ch.size, ch.id⟩], none, lease + 1)) ∧
    (∀ (R : Option Nat → Bool) (payload sha1 : List Nat) (sched : List (Option Nat))
        (u : Nat),
        ∀ a ∈ (simpleWriteAttempts R payload sha1 u sched).1,
          a.payload = payload ∧ a.sha1 = sha1 ∧ a.size = payload.length) ∧
    (∀ (R : Option Nat → Bool) (payload sha1 : List Nat) (u e : Nat),
        R (some e) = true →
        simpleWriteAttempts R payload sha1 u [some e] =
          ([⟨u, payload, payload.length, sha1⟩, ⟨u + 1, payload, payload.length, sha1⟩],
           none)) :=
  ⟨fun R ch sched lease =>
      ⟨uploadChunkAttempts_args R ch sched lease, uploadChunkAttempts_leases R ch sched lease⟩,
   fun R ch lease n e hf hR => uploadChunkAttempts_transient R ch lease n e hf hR,
   fun R payload sha1 sched u => simpleWriteAttempts_args R payload sha1 sched u,
   fun R payload sha1 u e hR => simpleWriteAttempts_transient R payload sha1 u e hR⟩

/-- Witness for C3: one transient short-write on a concrete chunk, then
success, through a fresh lease. -/
theorem writer_C3_witness :
    (¬ ((0 : Nat) = (⟨1, 3, [7, 8, 9], [7, 8, 9]⟩ : Chunk).size ∧
        (some 5 : Option Nat) = none)) ∧
    uploadChunkAttempts (fun _ => true) ⟨1, 3, [7, 8, 9], [7, 8, 9]⟩ 4 [(0, some 5)] =
      ([⟨4, [7, 8, 9], [7, 8, 9], 3, 1⟩, ⟨5, [7, 8, 9], [7, 8, 9], 3, 1⟩], none, 5) :=
  ⟨by decide,
   writer_C3_retry.2.1 (fun _ => true) ⟨1, 3, [7, 8, 9], [7, 8, 9]⟩ 4 0 (some 5)
     (by decide) rfl⟩

/-! ## Close-path helpers over a whole session -/

theorem isEmpty_false_of_ne {α : Type} (l : List α) (h : l ≠ []) : l.isEmpty = false := by
  cases l with
  | nil => exact absurd rfl h
  | cons a t => rfl

theorem Close_chunks_simple (w : Writer) (h0 : w.closed = false) (h1 : w.cidx = 0) :
    (Close w).2.chunks = w.chunks := by
  rw [Close_simple_state w h0 h1]

theorem Close_chunks_trailing (w : Writer) (h0 : w.closed = false) (h1 : w.cidx ≠ 0)
    (h2 : 0 < w.cbuf.length) :
    (Close w).2.chunks = w.chunks ++ [⟨w.cidx + 1, w.cbuf.length, w.chsh, w.cbuf⟩] := by
  rw [Close_multi_trailing w h0 h1 h2]
  show (sendChunk { w with closed := true }).chunks = _
  rw [sendChunk_chunks]

theorem Close_chunks_empty (w : Writer) (h0 : w.closed = false) (h1 : w.cidx ≠ 0)
    (h2 : w.cbuf.length = 0) :
    (Close w).2.chunks = w.chunks := by
  rw [Close_multi_empty w h0 h1 h2]

theorem Close_starts_trailing (w : Writer) (h0 : w.closed = false) (h1 : w.cidx ≠ 0)
    (h2 : 0 < w.cbuf.length) :
    (Close w).2.starts = if w.started then w.starts else w.starts + 1 := by
  rw [Close_multi_trailing w h0 h1 h2]
  show (sendChunk { w with closed := true }).starts = _
  rw [sendChunk_starts]

/-- Appending one chunk with the next id extends `1..k` to `1..k+1`. -/
theorem ids_extend (L : List Chunk) (t : Chunk)
    (hL : L.map Chunk.id = List.range' 1 L.length) (ht : t.id = L.length + 1) :
    (L ++ [t]).map Chunk.id = List.range' 1 (L ++ [t]).length := by
  rw [List.map_append, hL, List.length_append]
  simp only [List.map_cons, List.map_nil, List.length_cons, List.length_nil, ht]
  have hr := @List.range'_concat 1 1 L.length
  simp only [one_mul] at hr
  rw [Nat.add_comm 1 L.length] at hr
  rw [← hr]

/-- After `Close`, the uploaded parts assemble (in id order, which is
hand-off order) to exactly the bytes written, and `Close` reports no
error in the error-free session. -/
theorem close_obj (cu c : Nat) (ps : List (List Nat)) :
    (Close (runWrites (initW cu c) ps)).2.obj = some ps.flatten ∧
    (Close (runWrites (initW cu c) ps)).1 = none ∧
    (Close (runWrites (initW cu c) ps)).2.err = none := by
  obtain ⟨hInv, herr, hcont, hclosed, -, -, -, -, -⟩ := run_spec cu c ps
  obtain ⟨h1, h2, h3, h4, h5, h6, h7⟩ := hInv
  by_cases hcidx : (runWrites (initW cu c) ps).cidx = 0
  · have hchn : (runWrites (initW cu c) ps).chunks = [] := by
      rw [hcidx] at h2
      exact List.length_eq_zero.mp h2.symm
    have hst := Close_simple_state _ hclosed hcidx
    refine ⟨?_, ?_, ?_⟩
    · rw [hst]
      show some (runWrites (initW cu c) ps).cbuf = some ps.flatten
      rw [← hcont]
      unfold content
      rw [hchn]
      simp
    · rw [hst]
      exact herr
    · rw [hst]
      exact herr
  · by_cases hcb : 0 < (runWrites (initW cu c) ps).cbuf.length
    · have hst := Close_multi_trailing _ hclosed hcidx hcb
      refine ⟨?_, ?_, ?_⟩
      · rw [hst]
        show some ((((runWrites (initW cu c) ps).chunks.map Chunk.buf).flatten)
            ++ (runWrites (initW cu c) ps).cbuf) = some ps.flatten
        rw [← hcont]
        rfl
      · rw [hst]
        exact herr
      · rw [hst]
        show (sendChunk { (runWrites (initW cu c) ps) with closed := true }).err = none
        rw [sendChunk_err]
        exact herr
    · have hcbe : (runWrites (initW cu c) ps).cbuf = [] := by
        have : (runWrites (initW cu c) ps).cbuf.length = 0 := by omega
        exact List.length_eq_zero.mp this
      have hst := Close_multi_empty _ hclosed hcidx (by omega)
      refine ⟨?_, ?_, ?_⟩
      · rw [hst]
        show some (((runWrites (initW cu c) ps).chunks.map Chunk.buf).flatten)
            = some ps.flatten
        rw [← hcont]
        unfold content
        rw [hcbe]
        simp
      · rw [hst]
        exact herr
      · rw [hst]
        exact herr

/-- After `Close`, the chunk ids are exactly `1..k` in hand-off order. -/
theorem close_ids (cu c : Nat) (ps : List (List Nat)) :
    (Close (runWrites (initW cu c) ps)).2.chunks.map Chunk.id
      = List.range' 1 (Close (runWrites (initW cu c) ps)).2.chunks.length := by
  obtain ⟨hInv, -, -, hclosed, -, -, -, -, -⟩ := run_spec cu c ps
  obtain ⟨h1, h2, h3, h4, h5, h6, h7⟩ := hInv
  by_cases hcidx : (runWrites (initW cu c) ps).cidx = 0
  · rw [Close_chunks_simple _ hclosed hcidx]
    exact h3
  · by_cases hcb : 0 < (runWrites (initW cu c) ps).cbuf.length
    · rw [Close_chunks_trailing _ hclosed hcidx hcb]
      exact ids_extend _ _ h3 (by rw [h2])
    · rw [Close_chunks_empty _ hclosed hcidx (by omega)]
      exact h3

/-- Prefix boundaries after `Close`: the first `i` parts (those before a
part that exists) hold exactly `i` full thresholds of bytes. -/
theorem close_take_boundaries (cu c : Nat) (ps : List (List Nat)) :
    ∀ i, i < (Close (runWrites (initW cu c) ps)).2.chunks.length →
      ((((Close (runWrites (initW cu c) ps)).2.chunks.take i).map Chunk.buf).flatten).length
        = i * effSize c := by
  by_cases hps : ps = []
  · subst hps
    have hnil : (Close (runWrites (initW cu c) [])).2.chunks = [] := rfl
    intro i hi
    rw [hnil] at hi
    simp at hi
  · obtain ⟨hInv, -, -, hclosed, -, -, -, -, hcs⟩ := run_spec cu c ps
    obtain ⟨h1, h2, h3, h4, h5, h6, h7⟩ := hInv
    have hcsz := hcs hps
    have hfull : ∀ ch ∈ (runWrites (initW cu c) ps).chunks, ch.buf.length = effSize c := by
      intro ch hch
      rw [← hcsz]
      exact (h4 ch hch).2.2
    have hpre : ∀ i, i ≤ (runWrites (initW cu c) ps).chunks.length →
        ((((runWrites (initW cu c) ps).chunks.take i).map Chunk.buf).flatten).length
          = i * effSize c := by
      intro i hi
      rw [flatten_len_const _ (effSize c)
        (fun ch hch => hfull ch (List.mem_of_mem_take hch))]
      rw [List.length_take]
      rw [Nat.min_eq_left hi]
    by_cases hcidx : (runWrites (initW cu c) ps).cidx = 0
    · intro i hi
      rw [Close_chunks_simple _ hclosed hcidx] at hi ⊢
      exact hpre i (Nat.le_of_lt hi)
    · by_cases hcb : 0 < (runWrites (initW cu c) ps).cbuf.length
      · intro i hi
        rw [Close_chunks_trailing _ hclosed hcidx hcb] at hi ⊢
        rw [List.length_append, List.length_cons, List.length_nil] at hi
        have hile : i ≤ (runWrites (initW cu c) ps).chunks.length := by omega
        rw [List.take_append_of_le_length hile]
        exact hpre i hile
      · intro i hi
        rw [Close_chunks_empty _ hclosed hcidx (by omega)] at hi ⊢
        exact hpre i (Nat.le_of_lt hi)

/-- The observable write-loop state (chunks, buffer, digest, chunk
index) depends only on the concatenation of the bytes written. -/
theorem run_obs_eq (cu c : Nat) (ps qs : List (List Nat)) (h : ps.flatten = qs.flatten) :
    (runWrites (initW cu c) ps).chunks = (runWrites (initW cu c) qs).chunks ∧
    (runWrites (initW cu c) ps).cbuf = (runWrites (initW cu c) qs).cbuf ∧
    (runWrites (initW cu c) ps).chsh = (runWrites (initW cu c) qs).chsh ∧
    (runWrites (initW cu c) ps).cidx = (runWrites (initW cu c) qs).cidx := by
  have base : ∀ rs : List (List Nat), rs ≠ [] →
      runWrites (initW cu c) rs
        = writeList { initW cu c with csize := effSize ((initW cu c).csize) } rs.flatten := by
    intro rs hne
    rw [runWrites_eq rs _ (initW_bufOK cu c)]
    exact runList_flatten rs (initW cu c) rfl hne
  by_cases hps : ps = []
  · by_cases hqs : qs = []
    · subst hps
      subst hqs
      exact ⟨rfl, rfl, rfl, rfl⟩
    · subst hps
      rw [base qs hqs, ← h]
      exact ⟨rfl, rfl, rfl, rfl⟩
  · by_cases hqs : qs = []
    · subst hqs
      rw [base ps hps, h]
      exact ⟨rfl, rfl, rfl, rfl⟩
    · rw [base ps hps, base qs hqs, h]
      exact ⟨rfl, rfl, rfl, rfl⟩

/-- `Close` produces the same parts from states that agree on the
observable write-loop state. -/
theorem Close_chunks_congr (w v : Writer) (hw : w.closed = false) (hv : v.closed = false)
    (h1 : w.chunks = v.chunks) (h2 : w.cbuf = v.cbuf) (h3 : w.chsh = v.chsh)
    (h4 : w.cidx = v.cidx) :
    (Close w).2.chunks = (Close v).2.chunks := by
  by_cases hc : w.cidx = 0
  · rw [Close_chunks_simple w hw hc, Close_chunks_simple v hv (by rw [← h4]; exact hc)]
    exact h1
  · by_cases hb : 0 < w.cbuf.length
    · rw [Close_chunks_trailing w hw hc hb,
        Close_chunks_trailing v hv (by rw [← h4]; exact hc) (by rw [← h2]; exact hb),
        h1, h2, h3, h4]
    · rw [Close_chunks_empty w hw hc (by omega),
        Close_chunks_empty v hv (by rw [← h4]; exact hc) (by rw [← h2]; omega)]
      exact h1

/-- C1: for every finite sequence of `Write` calls followed by one
`Close`, the assembled remote object (the parts in increasing id order —
which is hand-off order, ids being `1..k` — followed by the trailing
buffer flushed at close) is exactly the concatenated input.  In
particular, with threshold 10 and 2 concurrent workers, writing the
25 bytes `65..89` (`"ABCDEFGHIJKLMNOPQRSTUVWXY"`) then closing produces
exactly the three parts `65..74`, `75..84`, `85..89` with ids 1, 2, 3,
one finish call, two workers, and the assembled object equals the
original 25 bytes. -/
theorem writer_C1_roundtrip :
    (∀ (cu c : Nat) (ps : List (List Nat)),
        (Close (runWrites (initW cu c) ps)).2.obj = some ps.flatten ∧
        (Close (runWrites (initW cu c) ps)).2.chunks.map Chunk.id
          = List.range' 1 (Close (runWrites (initW cu c) ps)).2.chunks.length) ∧
    (Close (runWrites (initW 2 10) [List.range' 65 25])).2.chunks =
      [⟨1, 10, List.range' 65 10, List.range' 65 10⟩,
       ⟨2, 10, List.range' 75 10, List.range' 75 10⟩,
       ⟨3, 5, List.range' 85 5, List.range' 85 5⟩] ∧
    (Close (runWrites (initW 2 10) [List.range' 65 25])).2.fins = 1 ∧
    (Close (runWrites (initW 2 10) [List.range' 65 25])).2.threads = 2 ∧
    (Close (runWrites (initW 2 10) [List.range' 65 25])).2.obj
      = some (List.range' 65 25) ∧
    (Close (runWrites (initW 2 10) [List.range' 65 25])).1 = none := by
  refine ⟨fun cu c ps => ⟨(close_obj cu c ps).1, close_ids cu c ps⟩, ?_, ?_, ?_, ?_, ?_⟩
  all_goals rw [runWrites_eq [List.range' 65 25] (initW 2 10) (by decide)]
  all_goals decide

/-- C2 counterexample: with threshold 10, writing exactly 10 bytes
(`L = 10 ≤ 10` = threshold, satisfying the claim's premise) then closing
performs zero simple uploads, starts a multipart session, and makes one
finish call — refuting "L ≤ threshold ⇒ exactly one simple-upload call
and zero multipart calls". -/
theorem writer_C2_counterexample :
    (List.range' 65 10).length ≤ 10 ∧
    ¬ ((Close (runWrites (initW 1 10) [List.range' 65 10])).2.simples = 1 ∧
       (Close (runWrites (initW 1 10) [List.range' 65 10])).2.starts = 0 ∧
       (Close (runWrites (initW 1 10) [List.range' 65 10])).2.fins = 0) ∧
    (Close (runWrites (initW 1 10) [List.range' 65 10])).2.simples = 0 ∧
    (Close (runWrites (initW 1 10) [List.range' 65 10])).2.starts = 1 ∧
    (Close (runWrites (initW 1 10) [List.range' 65 10])).2.fins = 1 := by
  refine ⟨by decide, ?_, ?_, ?_, ?_⟩
  all_goals rw [runWrites_eq [List.range' 65 10] (initW 1 10) (by decide)]
  all_goals decide

/-- C2 (amended): for every input whose total length is strictly below
the threshold in force, no chunk is ever flushed — the bytes stay solely
in the active buffer — and `Close` performs exactly one simple-upload
call and zero multipart calls (no session started, no part handed off,
no finish call). -/
theorem writer_C2_small_simple (cu c : Nat) (ps : List (List Nat))
    (h : ps.flatten.length < effSize c) :
    (runWrites (initW cu c) ps).chunks = [] ∧
    (runWrites (initW cu c) ps).cbuf = ps.flatten ∧
    (runWrites (initW cu c) ps).starts = 0 ∧
    (Close (runWrites (initW cu c) ps)).2.simples = 1 ∧
    (Close (runWrites (initW cu c) ps)).2.starts = 0 ∧
    (Close (runWrites (initW cu c) ps)).2.chunks = [] ∧
    (Close (runWrites (initW cu c) ps)).2.fins = 0 ∧
    (Close (runWrites (initW cu c) ps)).2.obj = some ps.flatten := by
  by_cases hps : ps = []
  · subst hps
    exact ⟨rfl, rfl, rfl, rfl, rfl, rfl, rfl, rfl⟩
  · obtain ⟨hInv, herr, hcont, hclosed, -, hsimp, hfins, -, hcs⟩ := run_spec cu c ps
    obtain ⟨h1, h2, h3, h4, h5, h6, h7⟩ := hInv
    have hcsz := hcs hps
    have hchunks : (runWrites (initW cu c) ps).chunks = [] := by
      rcases hE : (runWrites (initW cu c) ps).chunks with _ | ⟨ch, t⟩
      · rfl
      · exfalso
        have hmem : ch ∈ (runWrites (initW cu c) ps).chunks := by
          rw [hE]
          exact List.mem_cons_self ch t
        have hfull : ch.buf.length = effSize c := by
          rw [← hcsz]
          exact (h4 ch hmem).2.2
        have hlen : ps.flatten.length
            = (((runWrites (initW cu c) ps).chunks.map Chunk.buf).flatten).length
              + (runWrites (initW cu c) ps).cbuf.length := by
          rw [← hcont]
          unfold content
          rw [List.length_append]
        have hge : ch.buf.length
            ≤ (((runWrites (initW cu c) ps).chunks.map Chunk.buf).flatten).length := by
          rw [hE]
          simp only [List.map_cons, List.flatten_cons, List.length_append]
          omega
        omega
    have hcidx : (runWrites (initW cu c) ps).cidx = 0 := by
      rw [h2, hchunks]
      rfl
    have hcbuf : (runWrites (initW cu c) ps).cbuf = ps.flatten := by
      rw [← hcont]
      unfold content
      rw [hchunks]
      simp
    have hstarts : (runWrites (initW cu c) ps).starts = 0 := by
      rw [h6, hchunks]
      rfl
    have hst := Close_simple_state _ hclosed hcidx
    refine ⟨hchunks, hcbuf, hstarts, ?_, ?_, ?_, ?_, ?_⟩
    · rw [hst]
      show (runWrites (initW cu c) ps).simples + 1 = 1
      rw [hsimp]
    · rw [hst]
      show (runWrites (initW cu c) ps).starts = 0
      exact hstarts
    · rw [hst]
      show (runWrites (initW cu c) ps).chunks = []
      exact hchunks
    · rw [hst]
      show (runWrites (initW cu c) ps).fins = 0
      exact hfins
    · rw [hst]
      show some (runWrites (initW cu c) ps).cbuf = some ps.flatten
      rw [hcbuf]

/-- Witness for the amended C2 at a concrete short input. -/
theorem writer_C2_witness :
    ([[1, 2, 3]] : List (List Nat)).flatten.length < effSize 10 ∧
    (Close (runWrites (initW 1 10) [[1, 2, 3]])).2.simples = 1 ∧
    (Close (runWrites (initW 1 10) [[1, 2, 3]])).2.starts = 0 :=
  ⟨by decide,
   (writer_C2_small_simple 1 10 [[1, 2, 3]] (by decide)).2.2.2.1,
   (writer_C2_small_simple 1 10 [[1, 2, 3]] (by decide)).2.2.2.2.1⟩

/-- C4: chunk ids are exactly `1..k` in hand-off order, with no gap or
reuse, both before and after `Close`; the trailing non-empty buffer
becomes the last chunk (id `k`) exactly at close time, and with an empty
trailing buffer `Close` adds no chunk. -/
theorem writer_C4_ids (cu c : Nat) (ps : List (List Nat)) :
    (runWrites (initW cu c) ps).chunks.map Chunk.id
      = List.range' 1 (runWrites (initW cu c) ps).chunks.length ∧
    (Close (runWrites (initW cu c) ps)).2.chunks.map Chunk.id
      = List.range' 1 (Close (runWrites (initW cu c) ps)).2.chunks.length ∧
    ((runWrites (initW cu c) ps).cidx ≠ 0 → (runWrites (initW cu c) ps).cbuf ≠ [] →
      (Close (runWrites (initW cu c) ps)).2.chunks
        = (runWrites (initW cu c) ps).chunks ++
          [⟨(runWrites (initW cu c) ps).cidx + 1,
            (runWrites (initW cu c) ps).cbuf.length,
            (runWrites (initW cu c) ps).chsh,
            (runWrites (initW cu c) ps).cbuf⟩]) ∧
    ((runWrites (initW cu c) ps).cidx = 0 →
      (Close (runWrites (initW cu c) ps)).2.chunks = (runWrites (initW cu c) ps).chunks) := by
  obtain ⟨hInv, -, -, hclosed, -, -, -, -, -⟩ := run_spec cu c ps
  obtain ⟨h1, h2, h3, h4, h5, h6, h7⟩ := hInv
  refine ⟨h3, close_ids cu c ps, ?_, ?_⟩
  · intro hcidx hcb
    exact Close_chunks_trailing _ hclosed hcidx (List.length_pos.mpr hcb)
  · intro hcidx
    exact Close_chunks_simple _ hclosed hcidx

/-- Witness for C4 at a concrete session with a trailing buffer. -/
theorem writer_C4_witness :
    (runWrites (initW 1 3) [[1, 2, 3, 4], [5]]).cidx ≠ 0 ∧
    (Close (runWrites (initW 1 3) [[1, 2, 3, 4], [5]])).2.chunks
      = (runWrites (initW 1 3) [[1, 2, 3, 4], [5]]).chunks ++
        [⟨(runWrites (initW 1 3) [[1, 2, 3, 4], [5]]).cidx + 1,
          (runWrites (initW 1 3) [[1, 2, 3, 4], [5]]).cbuf.length,
          (runWrites (initW 1 3) [[1, 2, 3, 4], [5]]).chsh,
          (runWrites (initW 1 3) [[1, 2, 3, 4], [5]]).cbuf⟩] := by
  have hr := runWrites_eq [[1, 2, 3, 4], [5]] (initW 1 3) (by decide)
  refine ⟨by rw [hr]; decide,
    (writer_C4_ids 1 3 [[1, 2, 3, 4], [5]]).2.2.1 (by rw [hr]; decide) (by rw [hr]; decide)⟩

/-- C7: the multipart session is started exactly once per session —
`startLargeFile` is called once as soon as a chunk has been flushed and
never again (guarded by `sync.Once`), regardless of the concurrency
setting or of how many writes trigger flushes; with no flush it is never
called; and any input at least one threshold long does start it
(exactly once). -/
theorem writer_C7_multipart_once (cu c : Nat) (ps : List (List Nat)) :
    (runWrites (initW cu c) ps).starts
      = (if (runWrites (initW cu c) ps).chunks.isEmpty then 0 else 1) ∧
    (Close (runWrites (initW cu c) ps)).2.starts
      = (if (Close (runWrites (initW cu c) ps)).2.chunks.isEmpty then 0 else 1) ∧
    (effSize c ≤ ps.flatten.length → (Close (runWrites (initW cu c) ps)).2.starts = 1) := by
  obtain ⟨hInv, herr, hcont, hclosed, -, -, -, -, hcs⟩ := run_spec cu c ps
  obtain ⟨h1, h2, h3, h4, h5, h6, h7⟩ := hInv
  have hpost : (Close (runWrites (initW cu c) ps)).2.starts
      = (if (Close (runWrites (initW cu c) ps)).2.chunks.isEmpty then 0 else 1) := by
    by_cases hcidx : (runWrites (initW cu c) ps).cidx = 0
    · rw [Close_simple_state _ hclosed hcidx]
      exact h6
    · have hchne : (runWrites (initW cu c) ps).chunks ≠ [] := by
        intro hE
        apply hcidx
        rw [h2, hE]
        rfl
      have hemp := isEmpty_false_of_ne _ hchne
      have hstarted : (runWrites (initW cu c) ps).started = true := by
        rw [h5, hemp]
        rfl
      by_cases hcb : 0 < (runWrites (initW cu c) ps).cbuf.length
      · rw [Close_starts_trailing _ hclosed hcidx hcb, if_pos hstarted,
          Close_chunks_trailing _ hclosed hcidx hcb, h6, hemp]
        have : ((runWrites (initW cu c) ps).chunks ++
            [(⟨(runWrites (initW cu c) ps).cidx + 1,
              (runWrites (initW cu c) ps).cbuf.length,
              (runWrites (initW cu c) ps).chsh,
              (runWrites (initW cu c) ps).cbuf⟩ : Chunk)]).isEmpty = false := by
          apply isEmpty_false_of_ne
          simp
        rw [this]
      · rw [Close_multi_empty _ hclosed hcidx (by omega)]
        show (runWrites (initW cu c) ps).starts
          = (if (runWrites (initW cu c) ps).chunks.isEmpty then 0 else 1)
        exact h6
  refine ⟨h6, hpost, ?_⟩
  intro hL
  have hne : ps ≠ [] := by
    intro hE
    subst hE
    simp only [List.flatten_nil, List.length_nil] at hL
    have := effSize_pos c
    omega
  have hcsz := hcs hne
  have hchne : (runWrites (initW cu c) ps).chunks ≠ [] := by
    intro hE
    have hlen : ps.flatten.length = (runWrites (initW cu c) ps).cbuf.length := by
      rw [← hcont]
      unfold content
      rw [hE]
      simp
    have hlt : (runWrites (initW cu c) ps).cbuf.length < effSize c := by
      rcases h7 with h7 | ⟨h70, -, -⟩
      · rw [← hcsz]
        exact h7
      · rw [h70] at hcsz
        have := effSize_pos c
        omega
    omega
  have hcidx : (runWrites (initW cu c) ps).cidx ≠ 0 := by
    intro h0
    apply hchne
    rw [h0] at h2
    exact List.length_eq_zero.mp h2.symm
  have hchn' : (Close (runWrites (initW cu c) ps)).2.chunks ≠ [] := by
    by_cases hcb : 0 < (runWrites (initW cu c) ps).cbuf.length
    · rw [Close_chunks_trailing _ hclosed hcidx hcb]
      simp
    · rw [Close_chunks_empty _ hclosed hcidx (by omega)]
      exact hchne
  rw [hpost, isEmpty_false_of_ne _ hchn']
  rfl

/-- Witness for C7 at a concrete input one threshold long. -/
theorem writer_C7_witness :
    effSize 3 ≤ ([[1, 2, 3]] : List (List Nat)).flatten.length ∧
    (Close (runWrites (initW 1 3) [[1, 2, 3]])).2.starts = 1 :=
  ⟨by decide, (writer_C7_multipart_once 1 3 [[1, 2, 3]]).2.2 (by decide)⟩

/-- C10: the flushed chunks (ids, sizes, payloads, digests) and the
trailing buffer depend only on the concatenation of the bytes written,
not on how the caller partitions them across `Write` calls; every full
chunk (flushed during `Write`) is exactly one threshold long, and chunk
boundaries sit at consecutive multiples of the threshold. -/
theorem writer_C10_partition (cu c : Nat) (ps qs : List (List Nat))
    (h : ps.flatten = qs.flatten) :
    (runWrites (initW cu c) ps).chunks = (runWrites (initW cu c) qs).chunks ∧
    (runWrites (initW cu c) ps).cbuf = (runWrites (initW cu c) qs).cbuf ∧
    (runWrites (initW cu c) ps).chsh = (runWrites (initW cu c) qs).chsh ∧
    (Close (runWrites (initW cu c) ps)).2.chunks
      = (Close (runWrites (initW cu c) qs)).2.chunks ∧
    (Close (runWrites (initW cu c) ps)).2.obj
      = (Close (runWrites (initW cu c) qs)).2.obj ∧
    (∀ ch ∈ (runWrites (initW cu c) ps).chunks,
        ch.size = effSize c ∧ ch.buf.length = effSize c) ∧
    (∀ i, i < (Close (runWrites (initW cu c) ps)).2.chunks.length →
        ((((Close (runWrites (initW cu c) ps)).2.chunks.take i).map Chunk.buf).flatten).length
          = i * effSize c) := by
  obtain ⟨o1, o2, o3, o4⟩ := run_obs_eq cu c ps qs h
  refine ⟨o1, o2, o3, ?_, ?_, ?_, close_take_boundaries cu c ps⟩
  · exact Close_chunks_congr _ _ (run_spec cu c ps).2.2.2.1 (run_spec cu c qs).2.2.2.1
      o1 o2 o3 o4
  · rw [(close_obj cu c ps).1, (close_obj cu c qs).1, h]
  · intro ch hch
    have hps : ps ≠ [] := by
      intro hE
      subst hE
      exact List.not_mem_nil ch hch
    obtain ⟨hInv, -, -, -, -, -, -, -, hcs⟩ := run_spec cu c ps
    obtain ⟨-, -, -, h4, -, -, -⟩ := hInv
    obtain ⟨-, hb, hc2⟩ := h4 ch hch
    rw [hcs hps] at hc2
    exact ⟨hb.trans hc2, hc2⟩

/-- Witness for C10 at two concrete partitions of the same bytes. -/
theorem writer_C10_witness :
    ([[1, 2], [3]] : List (List Nat)).flatten = ([[1], [2, 3]] : List (List Nat)).flatten ∧
    (runWrites (initW 1 10) [[1, 2], [3]]).chunks
      = (runWrites (initW 1 10) [[1], [2, 3]]).chunks ∧
    (runWrites (initW 1 10) [[1, 2], [3]]).cbuf
      = (runWrites (initW 1 10) [[1], [2, 3]]).cbuf :=
  ⟨rfl, (writer_C10_partition 1 10 [[1, 2], [3]] [[1], [2, 3]] rfl).1,
   (writer_C10_partition 1 10 [[1, 2], [3]] [[1], [2, 3]] rfl).2.1⟩

end B2
